import Mathlib

/-!
Verification of the banner-centering utility: the script walks a directory
tree and re-centers two kinds of ASCII banner comments (three-line region
headers and one-line dash section headers) in files with the target
extension.  Lines are modelled as lists of characters; the section-header
regular expression is embedded as an explicit backtracking search that
follows the JavaScript engine search order (greedy quantifiers try longer
candidates first, the lazy title tries shorter candidates first, earlier
quantifiers take priority).
-/

namespace Center

/-- JavaScript whitespace class (the regex class and String.trim agree on it,
restricted to characters that can occur after splitting on newline plus the
common exotic members). -/
def isWsChar (c : Char) : Bool :=
  c = ' ' || c = '\t' || c = '\n' || c = '\r' || c = '\x0b' || c = '\x0c' ||
  c = '\u00A0' || c = '\u2028' || c = '\u2029' || c = '\uFEFF'

/-- The regex dot: any character except a line terminator. -/
def isDotChar (c : Char) : Bool :=
  !(c = '\n' || c = '\r' || c = '\u2028' || c = '\u2029')

/-- String.trim: strip leading and trailing whitespace. -/
def trimStr (l : List Char) : List Char :=
  ((l.dropWhile isWsChar).reverse.dropWhile isWsChar).reverse

/-- Length of the maximal leading whitespace run. -/
def wsRunLen (l : List Char) : Nat := (l.takeWhile isWsChar).length

/-- The dash character test of the two dash-run subpatterns. -/
def isDashChar (c : Char) : Bool := c = '-'

/-- Length of the maximal leading dash run. -/
def dashRunLen (l : List Char) : Nat := (l.takeWhile isDashChar).length

/-- First hit of a backtracking search over a list of candidate choices. -/
def firstSome : List α → (α → Option β) → Option β
  | [], _ => none
  | a :: t, f => match f a with | some b => some b | none => firstSome t f

/-- Candidate counts for a greedy plus quantifier: k, k-1, ..., 1. -/
def greedyCounts (k : Nat) : List Nat := (List.range' 1 k).reverse

/-- Candidate counts for a greedy star quantifier: k, k-1, ..., 0. -/
def greedyCounts0 (k : Nat) : List Nat := (List.range' 0 (k + 1)).reverse

/-- Candidate counts for a lazy plus quantifier: 1, 2, ..., k. -/
def lazyCounts (k : Nat) : List Nat := List.range' 1 k

/-- The five capture groups of SECTION_REGEX together with the two
whitespace gaps the pattern consumes around the title without capturing
them. -/
structure SFull where
  pfx : List Char
  dashL : List Char
  gapL : List Char
  title : List Char
  gapR : List Char
  dashR : List Char
  sfx : List Char
deriving DecidableEq, Repr

/-- The five capture groups the script actually uses. -/
structure SGroups where
  pfx : List Char
  dashL : List Char
  title : List Char
  dashR : List Char
  sfx : List Char
deriving DecidableEq, Repr

def SFull.groups (f : SFull) : SGroups :=
  ⟨f.pfx, f.dashL, f.title, f.dashR, f.sfx⟩

/-- The tail of SECTION_REGEX: one or more whitespace characters, two
slashes, then whitespace up to the end of the line.  Deterministic, since
backtracking inside it can never help.  Returns the matched group, which is
the whole remaining input. -/
def suffixGroup (u : List Char) : Option (List Char) :=
  let w := wsRunLen u
  if w = 0 then none else
  match u.drop w with
  | '/' :: '/' :: rest => if rest.all isWsChar then some u else none
  | _ => none

/-- Full match of SECTION_REGEX against a line, embedding the backtracking
search of the JavaScript engine.  The leading whitespace-star, the two
slashes and the following whitespace-plus are deterministic because a
backtracked character of theirs could never be matched by what follows.
The two dash runs and the two gaps are greedy, the title is lazy. -/
def sectionMatchFull (l : List Char) : Option SFull :=
  let w0 := l.takeWhile isWsChar
  match l.drop w0.length with
  | '/' :: '/' :: r2 =>
    let w1 := r2.takeWhile isWsChar
    if w1.length = 0 then none else
    let u := r2.drop w1.length
    let pfx := w0 ++ '/' :: '/' :: w1
    firstSome (greedyCounts (dashRunLen u)) fun d1 =>
      let u1 := u.drop d1
      firstSome (greedyCounts0 (wsRunLen u1)) fun g1 =>
        let u2 := u1.drop g1
        firstSome (lazyCounts u2.length) fun tl =>
          let t := u2.take tl
          if t.all isDotChar then
            let u3 := u2.drop tl
            firstSome (greedyCounts0 (wsRunLen u3)) fun g2 =>
              let u4 := u3.drop g2
              firstSome (greedyCounts (dashRunLen u4)) fun d2 =>
                (suffixGroup (u4.drop d2)).map fun s =>
                  ⟨pfx, u.take d1, u1.take g1, t, u3.take g2, u4.take d2, s⟩
          else none
  | _ => none

/-- line.match(SECTION_REGEX), keeping the five capture groups. -/
def sectionMatch (l : List Char) : Option SGroups :=
  (sectionMatchFull l).map SFull.groups

/-- The rebuilt line of the section pass: prefix, left dashes, one space,
title, one space, right dashes, suffix, with the dash budget split evenly
(remainder to the right). -/
def sectionCenter (g : SGroups) : List Char :=
  let totalWidth :=
    g.pfx.length + g.dashL.length + 2 + g.title.length + g.dashR.length +
      g.sfx.length
  let dashSpace :=
    totalWidth - g.pfx.length - g.sfx.length - g.title.length - 2
  let leftDashCount := dashSpace / 2
  let rightDashCount := dashSpace - leftDashCount
  g.pfx ++ List.replicate leftDashCount '-' ++ ' ' :: g.title ++
    ' ' :: List.replicate rightDashCount '-' ++ g.sfx

/-- One line of the section pass: rewrite a matching line, keep others. -/
def sectionRewriteLine (l : List Char) : List Char :=
  match sectionMatch l with
  | some g => sectionCenter g
  | none => l

/-- The per-file loop of centerSectionHeadersInFile: rewrite every line,
tracking whether any line changed. -/
def sectionLoop : List (List Char) → List (List Char) × Bool
  | [] => ([], false)
  | l :: rest =>
    let c := sectionRewriteLine l
    let (rest', ch) := sectionLoop rest
    (c :: rest', (c != l) || ch)

def REGION_START : List Char :=
  ("/******************************************************************************").toList

def REGION_END : List Char :=
  ("******************************************************************************/").toList

/-- Math.floor((width - title.length) / 2) spaces, the title, and the
remaining spaces; String.prototype.repeat throws on a negative count, which
is modelled by none. -/
def centerTitle (width : Nat) (title : List Char) : Option (List Char) :=
  let lp : Int := Int.fdiv ((width : Int) - (title.length : Int)) 2
  let rp : Int := (width : Int) - (title.length : Int) - lp
  if lp < 0 ∨ rp < 0 then none
  else some (List.replicate lp.toNat ' ' ++ title ++ List.replicate rp.toNat ' ')

/-- The scan of centerRegionHeadersInFile, structured on an explicit step
budget so that it computes by reduction: slide a window of three lines
over the (mutable) array of lines, rewriting the middle line of every
window whose top line starts with REGION_START and whose bottom line
starts with REGION_END. -/
def regionLoopF : Nat → List (List Char) → Nat → Bool →
    Option (List (List Char) × Bool)
  | 0, ls, _, changed => some (ls, changed)
  | fuel + 1, ls, i, changed =>
    if h : i + 2 < ls.length then
      let top := ls.get ⟨i, by omega⟩
      let middle := ls.get ⟨i + 1, by omega⟩
      let bottom := ls.get ⟨i + 2, by omega⟩
      if REGION_START.isPrefixOf top && REGION_END.isPrefixOf bottom then
        let title := trimStr middle
        if title.isEmpty then regionLoopF fuel ls (i + 1) changed
        else
          match centerTitle top.length title with
          | none => none
          | some centered =>
            if centered ≠ middle then
              regionLoopF fuel (ls.set (i + 1) centered) (i + 1) true
            else regionLoopF fuel ls (i + 1) changed
      else regionLoopF fuel ls (i + 1) changed
    else some (ls, changed)

/-- The scan from line index i, with the step budget that never runs out
before the loop guard fails. -/
def regionLoop (ls : List (List Char)) (i : Nat) (changed : Bool) :
    Option (List (List Char) × Bool) :=
  regionLoopF (ls.length - i) ls i changed

/-- The whole in-memory region pass over the lines of one file. -/
def regionPass (ls : List (List Char)) : Option (List (List Char) × Bool) :=
  regionLoop ls 0 false

/-- The whole in-memory section pass over the lines of one file. -/
def sectionPass (ls : List (List Char)) : List (List Char) × Bool :=
  sectionLoop ls

/-- content.split(the newline character). -/
def splitLines (content : List Char) : List (List Char) := content.splitOn '\n'

/-- lines.join(the newline character). -/
def joinLines (ls : List (List Char)) : List Char := List.intercalate ['\n'] ls

/-- The console report for a modified file. -/
def updatedLine (path : List Char) : List Char := ("Updated: ").toList ++ path

/-- The observable file-system and console effect of one pass on one file:
the content written back, if any, and the lines printed to standard
output. -/
structure FileRun where
  write : Option (List Char)
  stdout : List (List Char)
deriving DecidableEq, Repr

/-- centerSectionHeadersInFile: rewrite the lines, and write the rejoined
file and report it exactly when some line changed. -/
def centerSectionHeadersInFile (path content : List Char) : FileRun :=
  let r := sectionLoop (splitLines content)
  if r.2 then ⟨some (joinLines r.1), [updatedLine path]⟩ else ⟨none, []⟩

/-- centerRegionHeadersInFile, none when the centering step throws. -/
def centerRegionHeadersInFile (path content : List Char) : Option FileRun :=
  match regionPass (splitLines content) with
  | none => none
  | some (ls, changed) =>
    some (if changed then ⟨some (joinLines ls), [updatedLine path]⟩ else ⟨none, []⟩)

def EXTENSION : List Char := (".ts").toList

def EXCLUDE_DIRS : List (List Char) := [("node_modules").toList, (".git").toList]

/-- A directory tree entry: every entry is a file or a directory. -/
inductive FsEntry where
  | file : List Char → FsEntry
  | dir : List Char → List FsEntry → FsEntry

/-- path.join(dirPath, name). -/
def joinPath (dirPath name : List Char) : List Char := dirPath ++ '/' :: name

mutual
/-- The recursive walk: skip directories whose name is excluded, dispatch
files whose full path ends with the target extension.  The result lists,
for every dispatched file, the chain of directory names below the root
together with the file name. -/
def walkEntry (dirPath : List Char) (chain : List (List Char)) :
    FsEntry → List (List (List Char) × List Char)
  | .dir name children =>
    if name ∈ EXCLUDE_DIRS then []
    else walkEntries (joinPath dirPath name) (chain ++ [name]) children
  | .file name =>
    if EXTENSION.isSuffixOf (joinPath dirPath name) then [(chain, name)] else []

/-- The walk over the entries of one directory, in order. -/
def walkEntries (dirPath : List Char) (chain : List (List Char)) :
    List FsEntry → List (List (List Char) × List Char)
  | [] => []
  | e :: rest => walkEntry dirPath chain e ++ walkEntries dirPath chain rest
end

/-- walk(dir): the files dispatched to the two passes from a root. -/
def walk (dirPath : List Char) (entries : List FsEntry) :
    List (List (List Char) × List Char) :=
  walkEntries dirPath [] entries

/-- The test of whether a line has a whitespace first character; false for
the empty line. -/
def headIsWs (l : List Char) : Bool :=
  match l with
  | [] => false
  | c :: _ => isWsChar c

/-- Line j of a file is the middle line of a region-header triple of the
file as it stands: the line above starts with REGION_START and the line
below starts with REGION_END. -/
def isRegionMiddle (ls : List (List Char)) (j : Nat) : Prop :=
  1 ≤ j ∧ j + 1 < ls.length ∧
    REGION_START.isPrefixOf (ls.getD (j - 1) []) = true ∧
    REGION_END.isPrefixOf (ls.getD (j + 1) []) = true

/-- The test of whether a line has a whitespace last character; false for
the empty line. -/
def lastIsWs (l : List Char) : Bool := headIsWs l.reverse

/-- Border stability: every line the region pass rewrote, whether in its
old or its new form, starts with neither border literal.  Rewritten titles
that imitate a border line are the one way the pass can disturb its own
triple detection. -/
def borderStable (orig out : List (List Char)) : Prop :=
  ∀ j, j < orig.length → out.getD j [] ≠ orig.getD j [] →
    REGION_START.isPrefixOf (orig.getD j []) = false ∧
    REGION_START.isPrefixOf (out.getD j []) = false ∧
    REGION_END.isPrefixOf (orig.getD j []) = false ∧
    REGION_END.isPrefixOf (out.getD j []) = false

instance decBorderStable (orig out : List (List Char)) :
    Decidable (borderStable orig out) := by
  unfold borderStable
  infer_instance

instance decIsRegionMiddle (ls : List (List Char)) (j : Nat) :
    Decidable (isRegionMiddle ls j) := by
  unfold isRegionMiddle
  infer_instance

/-- The structural facts SECTION_REGEX guarantees about a full match: the
line is the concatenation of the five groups and the two gaps, the groups
have the shapes of their subpatterns. -/
def SectionInv (l : List Char) (f : SFull) : Prop :=
  l = f.pfx ++ f.dashL ++ f.gapL ++ f.title ++ f.gapR ++ f.dashR ++ f.sfx ∧
  (∃ w0 w1, f.pfx = w0 ++ '/' :: '/' :: w1 ∧ w0.all isWsChar = true ∧
    w1.all isWsChar = true ∧ w1 ≠ []) ∧
  f.dashL ≠ [] ∧ f.dashL.all isDashChar = true ∧
  f.gapL.all isWsChar = true ∧
  f.title ≠ [] ∧ f.title.all isDotChar = true ∧
  f.gapR.all isWsChar = true ∧
  f.dashR ≠ [] ∧ f.dashR.all isDashChar = true ∧
  (∃ s1 s2, f.sfx = s1 ++ '/' :: '/' :: s2 ∧ s1.all isWsChar = true ∧
    s1 ≠ [] ∧ s2.all isWsChar = true)

/-! ### Search-combinator and candidate-list lemmas -/

theorem firstSome_cons_some {α β : Type} {a : α} {l : List α}
    {f : α → Option β} {b : β} (h : f a = some b) :
    firstSome (a :: l) f = some b := by
  simp [firstSome, h]

theorem firstSome_cons_none {α β : Type} {a : α} {l : List α}
    {f : α → Option β} (h : f a = none) :
    firstSome (a :: l) f = firstSome l f := by
  simp [firstSome, h]

theorem firstSome_eq_some {α β : Type} {l : List α} {f : α → Option β}
    {b : β} (h : firstSome l f = some b) : ∃ a, a ∈ l ∧ f a = some b := by
  induction l with
  | nil => simp [firstSome] at h
  | cons a t ih =>
    cases hfa : f a with
    | some c =>
      rw [firstSome_cons_some hfa] at h
      exact ⟨a, by simp, by rw [hfa, h]⟩
    | none =>
      rw [firstSome_cons_none hfa] at h
      obtain ⟨x, hx, hfx⟩ := ih h
      exact ⟨x, by simp [hx], hfx⟩

theorem firstSome_append_none {α β : Type} {l1 l2 : List α}
    {f : α → Option β} (h : ∀ a ∈ l1, f a = none) :
    firstSome (l1 ++ l2) f = firstSome l2 f := by
  induction l1 with
  | nil => rfl
  | cons a t ih =>
    rw [List.cons_append, firstSome_cons_none (h a (by simp))]
    exact ih fun x hx => h x (by simp [hx])

theorem greedyCounts_succ (k : Nat) :
    greedyCounts (k + 1) = (k + 1) :: greedyCounts k := by
  show (List.range' 1 (k + 1)).reverse = (k + 1) :: (List.range' 1 k).reverse
  rw [List.range'_concat, List.reverse_append]
  simp [Nat.add_comm]

theorem greedyCounts0_succ (k : Nat) :
    greedyCounts0 (k + 1) = (k + 1) :: greedyCounts0 k := by
  show (List.range' 0 (k + 1 + 1)).reverse = (k + 1) :: (List.range' 0 (k + 1)).reverse
  rw [List.range'_concat, List.reverse_append]
  simp

theorem mem_greedyCounts {a k : Nat} : a ∈ greedyCounts k ↔ 1 ≤ a ∧ a ≤ k := by
  unfold greedyCounts
  rw [List.mem_reverse, List.mem_range']
  constructor
  · rintro ⟨i, hi, rfl⟩; omega
  · rintro ⟨h1, h2⟩; exact ⟨a - 1, by omega, by omega⟩

theorem mem_greedyCounts0 {a k : Nat} : a ∈ greedyCounts0 k ↔ a ≤ k := by
  unfold greedyCounts0
  rw [List.mem_reverse, List.mem_range']
  constructor
  · rintro ⟨i, hi, rfl⟩; omega
  · rintro h; exact ⟨a, by omega, by omega⟩

theorem mem_lazyCounts {a k : Nat} : a ∈ lazyCounts k ↔ 1 ≤ a ∧ a ≤ k := by
  unfold lazyCounts
  rw [List.mem_range']
  constructor
  · rintro ⟨i, hi, rfl⟩; omega
  · rintro ⟨h1, h2⟩; exact ⟨a - 1, by omega, by omega⟩

theorem lazyCounts_split {m k : Nat} (h1 : 1 ≤ m) (h2 : m ≤ k) :
    lazyCounts k = lazyCounts (m - 1) ++ List.range' m (k - m + 1) := by
  unfold lazyCounts
  have h := List.range'_append 1 (m - 1) (k - m + 1) 1
  simp only [Nat.mul_one, Nat.one_mul] at h
  have e1 : 1 + (m - 1) = m := by omega
  have e2 : k - m + 1 + (m - 1) = k := by omega
  rw [e1, e2] at h
  exact h.symm

/-! ### takeWhile and dropWhile run lemmas -/

theorem takeWhile_append_not {α : Type} {p : α → Bool} {c : α}
    (hc : p c = false) (x z : List α) :
    (x ++ c :: z).takeWhile p = x.takeWhile p := by
  induction x with
  | nil => simp [List.takeWhile_cons, hc]
  | cons a t ih =>
    cases h : p a with
    | true => simp [List.takeWhile_cons, h, ih]
    | false => simp [List.takeWhile_cons, h]

theorem takeWhile_all_eq {α : Type} {p : α → Bool} {x : List α}
    (h : ∀ a ∈ x, p a = true) : x.takeWhile p = x := by
  induction x with
  | nil => rfl
  | cons a t ih =>
    simp only [List.takeWhile_cons, h a (by simp), if_true]
    rw [ih fun b hb => h b (by simp [hb])]

theorem drop_takeWhile_len {α : Type} (p : α → Bool) (l : List α) :
    l.drop (l.takeWhile p).length = l.dropWhile p := by
  have h := List.drop_left (l.takeWhile p) (l.dropWhile p)
  rw [List.takeWhile_append_dropWhile] at h
  exact h

theorem take_runLen_all {α : Type} {p : α → Bool} {l : List α} {n : Nat}
    (h : n ≤ (l.takeWhile p).length) : ∀ a ∈ l.take n, p a = true := by
  intro a ha
  obtain ⟨r, hr⟩ := List.takeWhile_prefix (l := l) p
  rw [← hr, List.take_append_of_le_length h] at ha
  exact List.mem_takeWhile_imp (List.mem_of_mem_take ha)

theorem headIsWs_dropWhile (l : List Char) :
    headIsWs (l.dropWhile isWsChar) = false := by
  induction l with
  | nil => rfl
  | cons a t ih =>
    rw [List.dropWhile_cons]
    cases h : isWsChar a with
    | true => simpa [h] using ih
    | false => simp [h, headIsWs]

theorem headIsWs_append {x y : List Char} (hx : x ≠ []) :
    headIsWs (x ++ y) = headIsWs x := by
  cases x with
  | nil => exact absurd rfl hx
  | cons a t => rfl

theorem dropWhile_of_headIsWs_false {x : List Char} (h : headIsWs x = false) :
    x.dropWhile isWsChar = x := by
  cases x with
  | nil => rfl
  | cons a t =>
    rw [List.dropWhile_cons]
    simp only [headIsWs] at h
    simp [h]

theorem dropWhile_ws_replicate (a : Nat) (y : List Char) :
    (List.replicate a ' ' ++ y).dropWhile isWsChar = y.dropWhile isWsChar := by
  induction a with
  | zero => rfl
  | succ n ih =>
    rw [List.replicate_succ, List.cons_append, List.dropWhile_cons]
    simpa using ih

/-! ### String.trim lemmas -/

theorem trimStr_spec (l : List Char) :
    ∃ w1 w2, w1.all isWsChar = true ∧ w2.all isWsChar = true ∧
      l = w1 ++ trimStr l ++ w2 ∧ headIsWs (trimStr l) = false ∧
      lastIsWs (trimStr l) = false := by
  have h1 : l.takeWhile isWsChar ++ l.dropWhile isWsChar = l :=
    List.takeWhile_append_dropWhile ..
  have h2 : (l.dropWhile isWsChar).reverse.takeWhile isWsChar ++
      (l.dropWhile isWsChar).reverse.dropWhile isWsChar =
      (l.dropWhile isWsChar).reverse :=
    List.takeWhile_append_dropWhile ..
  have h3 : l.dropWhile isWsChar =
      trimStr l ++ ((l.dropWhile isWsChar).reverse.takeWhile isWsChar).reverse := by
    have h4 := congrArg List.reverse h2
    rw [List.reverse_append, List.reverse_reverse] at h4
    exact h4.symm
  refine ⟨l.takeWhile isWsChar,
    ((l.dropWhile isWsChar).reverse.takeWhile isWsChar).reverse, ?_, ?_, ?_, ?_, ?_⟩
  · rw [List.all_eq_true]; exact fun x hx => List.mem_takeWhile_imp hx
  · rw [List.all_eq_true]
    intro x hx
    rw [List.mem_reverse] at hx
    exact List.mem_takeWhile_imp hx
  · rw [List.append_assoc, ← h3, h1]
  · have ha : headIsWs (l.dropWhile isWsChar) = false := headIsWs_dropWhile l
    by_cases hb : trimStr l = []
    · rw [hb]; rfl
    · rw [h3, headIsWs_append hb] at ha
      exact ha
  · show headIsWs (trimStr l).reverse = false
    have h5 : (trimStr l).reverse = (l.dropWhile isWsChar).reverse.dropWhile isWsChar := by
      unfold trimStr
      rw [List.reverse_reverse]
    rw [h5]
    exact headIsWs_dropWhile _

theorem trimStr_pad (t : List Char) (a b : Nat)
    (h1 : headIsWs t = false) (h2 : lastIsWs t = false) :
    trimStr (List.replicate a ' ' ++ t ++ List.replicate b ' ') = t := by
  unfold trimStr
  rw [List.append_assoc, dropWhile_ws_replicate]
  cases t with
  | nil =>
    rw [List.nil_append]
    have hb : (List.replicate b ' ').dropWhile isWsChar = [] := by
      have := dropWhile_ws_replicate b []
      simpa using this
    rw [hb]
    rfl
  | cons c t' =>
    simp only [headIsWs] at h1
    rw [List.cons_append, List.dropWhile_cons]
    simp only [h1, Bool.false_eq_true, if_false]
    have hrev : (c :: (t' ++ List.replicate b ' ')).reverse =
        List.replicate b ' ' ++ (c :: t').reverse := by
      simp [List.reverse_cons, List.reverse_append, List.reverse_replicate,
        List.append_assoc]
    rw [hrev, dropWhile_ws_replicate]
    have hlast : headIsWs (c :: t').reverse = false := h2
    rw [dropWhile_of_headIsWs_false hlast, List.reverse_reverse]

/-! ### Centering arithmetic lemmas -/

theorem fdiv_ofNat_two (n : Nat) :
    Int.fdiv (Int.ofNat n) 2 = Int.ofNat (n / 2) := by
  cases n with
  | zero => rfl
  | succ m => rfl

theorem fdiv_negSucc_two (k : Nat) :
    Int.fdiv (Int.negSucc k) 2 = Int.negSucc (k / 2) := rfl

theorem centerTitle_eq (w : Nat) (t : List Char) :
    centerTitle w t =
      if t.length ≤ w then
        some (List.replicate ((w - t.length) / 2) ' ' ++ t ++
          List.replicate (w - t.length - (w - t.length) / 2) ' ')
      else none := by
  unfold centerTitle
  by_cases h : t.length ≤ w
  · have e1 : (w : Int) - (t.length : Int) = Int.ofNat (w - t.length) := by
      simp only [Int.ofNat_eq_coe]; omega
    rw [e1, fdiv_ofNat_two]
    dsimp only
    have e2 : Int.ofNat (w - t.length) - Int.ofNat ((w - t.length) / 2) =
        Int.ofNat (w - t.length - (w - t.length) / 2) := by
      simp only [Int.ofNat_eq_coe]; omega
    rw [e2]
    have hcond : ¬(Int.ofNat ((w - t.length) / 2) < 0 ∨
        Int.ofNat (w - t.length - (w - t.length) / 2) < 0) := by
      push_neg
      exact ⟨Int.ofNat_nonneg _, Int.ofNat_nonneg _⟩
    rw [if_neg hcond, if_pos h]
    simp only [Int.ofNat_eq_coe, Int.toNat_ofNat]
  · have e1 : (w : Int) - (t.length : Int) = Int.negSucc (t.length - w - 1) := by
      have h2 : Int.negSucc (t.length - w - 1) = -(((t.length - w - 1 : Nat) : Int) + 1) :=
        Int.negSucc_eq _
      rw [h2]; omega
    rw [e1, fdiv_negSucc_two]
    dsimp only
    rw [if_pos (Or.inl (Int.negSucc_lt_zero _)), if_neg h]

/-! ### Extraction of the structural invariant from a successful match -/

theorem takeWhile_pref_split {α : Type} (p : α → Bool) (l : List α) :
    l = l.takeWhile p ++ l.drop (l.takeWhile p).length := by
  obtain ⟨r, hr⟩ := List.takeWhile_prefix (l := l) p
  have hd := List.drop_left (l.takeWhile p) r
  rw [hr] at hd
  rw [hd, hr]

theorem take_ne_nil_of_le {α : Type} {l : List α} {n m : Nat} (h1 : 1 ≤ n)
    (h2 : n ≤ m) (h3 : m ≤ l.length) : l.take n ≠ [] := by
  have : (l.take n).length = n := by
    rw [List.length_take]; omega
  intro hcon
  rw [hcon] at this
  simp at this
  omega

theorem suffixGroup_eq_some {u s : List Char} (h : suffixGroup u = some s) :
    s = u ∧ ∃ s1 s2, u = s1 ++ '/' :: '/' :: s2 ∧ s1.all isWsChar = true ∧
      s1 ≠ [] ∧ s2.all isWsChar = true := by
  unfold suffixGroup at h
  dsimp only at h
  split at h
  · exact absurd h (by simp)
  · rename_i hw
    split at h
    · rename_i rest heq
      split at h
      · rename_i hall
        obtain rfl : u = s := by injection h
        refine ⟨rfl, u.takeWhile isWsChar, rest, ?_, ?_, ?_, hall⟩
        · have hsplit := takeWhile_pref_split isWsChar u
          unfold wsRunLen at heq
          rw [← heq]
          exact hsplit
        · rw [List.all_eq_true]
          exact fun x hx => List.mem_takeWhile_imp hx
        · intro hcon
          unfold wsRunLen at hw
          rw [hcon] at hw
          simp at hw
      · exact absurd h (by simp)
    · exact absurd h (by simp)

theorem sectionMatchFull_inv {l : List Char} {f : SFull}
    (h : sectionMatchFull l = some f) : SectionInv l f := by
  unfold sectionMatchFull at h
  dsimp only at h
  split at h
  case h_2 => exact absurd h (by simp)
  case h_1 =>
  rename_i r2 heq
  split at h
  · exact absurd h (by simp)
  rename_i hw1
  obtain ⟨d1, hd1, h1⟩ := firstSome_eq_some h
  try dsimp only at h1
  obtain ⟨g1, hg1, h2⟩ := firstSome_eq_some h1
  try dsimp only at h2
  obtain ⟨tl, htl, h3⟩ := firstSome_eq_some h2
  try dsimp only at h3
  split at h3
  case isFalse => exact absurd h3 (by simp)
  rename_i hdot
  obtain ⟨g2, hg2, h4⟩ := firstSome_eq_some h3
  try dsimp only at h4
  obtain ⟨d2, hd2, h5⟩ := firstSome_eq_some h4
  try dsimp only at h5
  rw [Option.map_eq_some'] at h5
  obtain ⟨s, hs, hf⟩ := h5
  obtain ⟨rfl, s1, s2, hsfx, hs1, hs1ne, hs2⟩ := suffixGroup_eq_some hs
  rw [mem_greedyCounts] at hd1 hd2
  rw [mem_greedyCounts0] at hg1 hg2
  rw [mem_lazyCounts] at htl
  subst hf
  set w0 := l.takeWhile isWsChar with hw0
  set w1 := r2.takeWhile isWsChar with hw1d
  set u := r2.drop w1.length with hu
  set u1 := u.drop d1 with hu1
  set u2 := u1.drop g1 with hu2
  set u3 := u2.drop tl with hu3
  set u4 := u3.drop g2 with hu4
  have hlenDash : dashRunLen u ≤ u.length :=
    (List.takeWhile_prefix (l := u) _).length_le
  have hlenWs1 : wsRunLen u1 ≤ u1.length :=
    (List.takeWhile_prefix (l := u1) _).length_le
  have hlenWs3 : wsRunLen u3 ≤ u3.length :=
    (List.takeWhile_prefix (l := u3) _).length_le
  have hlenDash4 : dashRunLen u4 ≤ u4.length :=
    (List.takeWhile_prefix (l := u4) _).length_le
  refine ⟨?_, ⟨w0, w1, rfl, ?_, ?_, ?_⟩, ?_, ?_, ?_, ?_, hdot, ?_, ?_, ?_,
    ⟨s1, s2, hsfx, hs1, hs1ne, hs2⟩⟩
  · show l = (w0 ++ '/' :: '/' :: w1) ++ u.take d1 ++ u1.take g1 ++ u2.take tl ++
      u3.take g2 ++ u4.take d2 ++ u4.drop d2
    have e0 : l = w0 ++ '/' :: '/' :: r2 := by
      conv_lhs => rw [takeWhile_pref_split isWsChar l]
      rw [← hw0, heq]
    have e1 : r2 = w1 ++ u := by
      conv_lhs => rw [takeWhile_pref_split isWsChar r2]
    have e2 : u = u.take d1 ++ u1 := (List.take_append_drop d1 u).symm
    have e3 : u1 = u1.take g1 ++ u2 := (List.take_append_drop g1 u1).symm
    have e4 : u2 = u2.take tl ++ u3 := (List.take_append_drop tl u2).symm
    have e5 : u3 = u3.take g2 ++ u4 := (List.take_append_drop g2 u3).symm
    have e6 : u4 = u4.take d2 ++ u4.drop d2 := (List.take_append_drop d2 u4).symm
    rw [e0]
    conv_lhs => rw [e1, e2, e3, e4, e5, e6]
    simp [List.append_assoc]
  · rw [List.all_eq_true]; exact fun x hx => List.mem_takeWhile_imp hx
  · rw [List.all_eq_true]; exact fun x hx => List.mem_takeWhile_imp hx
  · intro hcon
    exact hw1 (by rw [hcon]; rfl)
  · exact take_ne_nil_of_le hd1.1 hd1.2 hlenDash
  · rw [List.all_eq_true]; exact take_runLen_all hd1.2
  · rw [List.all_eq_true]; exact take_runLen_all hg1
  · exact take_ne_nil_of_le htl.1 htl.2 (le_refl _)
  · rw [List.all_eq_true]; exact take_runLen_all hg2
  · exact take_ne_nil_of_le hd2.1 hd2.2 hlenDash4
  · rw [List.all_eq_true]; exact take_runLen_all hd2.2

/-! ### The rebuilt line and its lengths -/

theorem sectionCenter_parts (g : SGroups) :
    sectionCenter g =
      g.pfx ++ List.replicate ((g.dashL.length + g.dashR.length) / 2) '-' ++
        ' ' :: g.title ++ ' ' ::
        List.replicate (g.dashL.length + g.dashR.length -
          (g.dashL.length + g.dashR.length) / 2) '-' ++ g.sfx := by
  unfold sectionCenter
  dsimp only
  have e : g.pfx.length + g.dashL.length + 2 + g.title.length + g.dashR.length +
      g.sfx.length - g.pfx.length - g.sfx.length - g.title.length - 2 =
      g.dashL.length + g.dashR.length := by omega
  rw [e]

theorem sectionCenter_length (g : SGroups) :
    (sectionCenter g).length =
      g.pfx.length + g.dashL.length + 2 + g.title.length + g.dashR.length +
        g.sfx.length := by
  rw [sectionCenter_parts]
  simp only [List.length_append, List.length_replicate, List.length_cons]
  omega

/-! ### Failure lemmas for the backtracking search on a rebuilt line -/

theorem firstSome_none {α β : Type} {l : List α} {f : α → Option β}
    (h : ∀ a ∈ l, f a = none) : firstSome l f = none := by
  induction l with
  | nil => rfl
  | cons a t ih =>
    rw [firstSome_cons_none (h a (by simp))]
    exact ih fun x hx => h x (by simp [hx])

theorem lastIsWs_of_all {x : List Char} (hx : x ≠ [])
    (h : ∀ c ∈ x, isWsChar c = true) : lastIsWs x = true := by
  unfold lastIsWs
  cases hrev : x.reverse with
  | nil => exact absurd (by simpa using congrArg List.reverse hrev) hx
  | cons c r =>
    show isWsChar c = true
    have : c ∈ x := by
      rw [← List.mem_reverse, hrev]
      simp
    exact h c this

theorem wsRunLen_lt_of_lastIsWs_false {x y : List Char} (hx : x ≠ [])
    (hlast : lastIsWs x = false) : wsRunLen (x ++ y) < x.length := by
  by_contra hcon
  push_neg at hcon
  have hall : ∀ c ∈ (x ++ y).take x.length, isWsChar c = true :=
    take_runLen_all hcon
  rw [List.take_left] at hall
  rw [lastIsWs_of_all hx hall] at hlast
  exact Bool.true_eq_false.mp hlast

theorem drop_ne_nil_lastIsWs {t : List Char} {n : Nat} (hlt : n < t.length)
    (hlast : lastIsWs t = false) :
    t.drop n ≠ [] ∧ lastIsWs (t.drop n) = false := by
  have hne : t.drop n ≠ [] := by
    intro hcon
    have := congrArg List.length hcon
    rw [List.length_drop] at this
    simp at this
    omega
  refine ⟨hne, ?_⟩
  unfold lastIsWs at hlast ⊢
  have hsplit : (t.drop n).reverse ++ (t.take n).reverse = t.reverse := by
    rw [← List.reverse_append, List.take_append_drop]
  have hrevne : (t.drop n).reverse ≠ [] := by
    intro hcon
    exact hne (by simpa using congrArg List.reverse hcon)
  rw [← hsplit, headIsWs_append hrevne] at hlast
  exact hlast

theorem suffixGroup_pad_dash_none (x z : List Char)
    (hlast : lastIsWs x = false) :
    suffixGroup (x ++ ' ' :: '-' :: z) = none := by
  cases hx : x with
  | nil =>
    have h1 : wsRunLen ([] ++ ' ' :: '-' :: z) = 1 := by
      unfold wsRunLen
      rw [List.nil_append, List.takeWhile_cons]
      have e1 : isWsChar ' ' = true := rfl
      have e2 : isWsChar '-' = false := rfl
      rw [if_pos e1, List.takeWhile_cons, if_neg (by simp [e2])]
      rfl
    unfold suffixGroup
    dsimp only
    rw [h1]
    simp
  | cons c x' =>
    rw [← hx]
    have hxne : x ≠ [] := by rw [hx]; simp
    have hwlt : wsRunLen (x ++ ' ' :: '-' :: z) < x.length :=
      wsRunLen_lt_of_lastIsWs_false hxne hlast
    by_cases hw0 : wsRunLen (x ++ ' ' :: '-' :: z) = 0
    · unfold suffixGroup
      dsimp only
      rw [if_pos hw0]
    · unfold suffixGroup
      dsimp only
      rw [if_neg hw0]
      have hdrop : (x ++ ' ' :: '-' :: z).drop (wsRunLen (x ++ ' ' :: '-' :: z)) =
          x.drop (wsRunLen (x ++ ' ' :: '-' :: z)) ++ ' ' :: '-' :: z :=
        List.drop_append_of_le_length (by omega)
      rw [hdrop]
      rcases hxd : x.drop (wsRunLen (x ++ ' ' :: '-' :: z)) with _ | ⟨d, xd2⟩
      · have := congrArg List.length hxd
        rw [List.length_drop] at this
        simp at this
        omega
      · rcases hxd2 : xd2 with _ | ⟨e, xd3⟩
        · -- the second character is the separating space, never a slash
          split
          · rename_i rest heq
            simp at heq
          · rfl
        · split
          · rename_i rest heq
            rw [List.cons_append, List.cons_append] at heq
            have hrest : rest = xd3 ++ ' ' :: '-' :: z := by
              injection heq with h1 h2
              injection h2 with h3 h4
              exact h4.symm
            rw [if_neg]
            intro hall
            rw [List.all_eq_true] at hall
            have hd := hall '-' (by rw [hrest]; simp)
            exact absurd hd (by decide)
          · rfl

/-- Re-matching a rebuilt section line whose title has a non-whitespace
first and last character recovers exactly the prefix, the two dash runs,
the title and the suffix, with a single space in each gap. -/
theorem sectionMatchFull_center {w0 w1 t s1 s2 : List Char} {a b : Nat}
    (hw0 : w0.all isWsChar = true) (hw1 : w1.all isWsChar = true)
    (hw1ne : w1 ≠ []) (ha : 1 ≤ a) (hb : 1 ≤ b) (ht : t ≠ [])
    (htdot : t.all isDotChar = true) (hthead : headIsWs t = false)
    (htlast : lastIsWs t = false) (hs1 : s1.all isWsChar = true)
    (hs1ne : s1 ≠ []) (hs2 : s2.all isWsChar = true) :
    sectionMatchFull (w0 ++ '/' :: '/' :: (w1 ++ (List.replicate a '-' ++
        (' ' :: (t ++ (' ' :: (List.replicate b '-' ++
          (s1 ++ '/' :: '/' :: s2)))))))) =
      some ⟨w0 ++ '/' :: '/' :: w1, List.replicate a '-', [' '], t, [' '],
        List.replicate b '-', s1 ++ '/' :: '/' :: s2⟩ := by
  obtain ⟨a1, rfl⟩ : ∃ a1, a = a1 + 1 := ⟨a - 1, by omega⟩
  obtain ⟨b1, rfl⟩ : ∃ b1, b = b1 + 1 := ⟨b - 1, by omega⟩
  set S := s1 ++ '/' :: '/' :: s2 with hS
  set Db : List Char := List.replicate (b1 + 1) '-' with hDb
  set V2 : List Char := ' ' :: (Db ++ S) with hV2def
  set W := t ++ V2 with hWdef
  set V : List Char := ' ' :: W with hVdef
  set Da : List Char := List.replicate (a1 + 1) '-' with hDa
  set U := Da ++ V with hUdef
  set R2 := w1 ++ U with hR2def
  -- basic character facts
  have hwsSlash : isWsChar '/' = false := rfl
  have hwsDash : isWsChar '-' = false := rfl
  have hwsSpace : isWsChar ' ' = true := rfl
  have hdashSpace : isDashChar ' ' = false := rfl
  have hdashSlash : isDashChar '/' = false := rfl
  -- the title starts with a visible character
  obtain ⟨tc, t', rfl⟩ : ∃ tc t', t = tc :: t' := by
    cases t with
    | nil => exact absurd rfl ht
    | cons x xs => exact ⟨x, xs, rfl⟩
  have htc : isWsChar tc = false := hthead
  -- stage one: the deterministic prefix
  have hF1 : (w0 ++ '/' :: '/' :: R2).takeWhile isWsChar = w0 := by
    rw [takeWhile_append_not hwsSlash]
    exact takeWhile_all_eq (List.all_eq_true.mp hw0)
  have hF2 : (w0 ++ '/' :: '/' :: R2).drop w0.length = '/' :: '/' :: R2 :=
    List.drop_left w0 _
  have hR2cons : R2 = w1 ++ '-' :: (List.replicate a1 '-' ++ V) := by
    rw [hR2def, hUdef, hDa, List.replicate_succ, List.cons_append]
  have hF3 : R2.takeWhile isWsChar = w1 := by
    rw [hR2cons, takeWhile_append_not hwsDash]
    exact takeWhile_all_eq (List.all_eq_true.mp hw1)
  have hF4 : ¬w1.length = 0 := by
    rw [List.length_eq_zero]
    exact hw1ne
  have hF5 : R2.drop w1.length = U := List.drop_left w1 U
  have hDaAll : ∀ c ∈ Da, isDashChar c = true := by
    intro c hc
    have := List.eq_of_mem_replicate (hDa ▸ hc)
    simp [this, isDashChar]
  have hF6 : dashRunLen U = a1 + 1 := by
    rw [hUdef, hVdef]
    unfold dashRunLen
    rw [takeWhile_append_not hdashSpace, takeWhile_all_eq hDaAll, hDa,
      List.length_replicate]
  have hF7 : U.drop (a1 + 1) = V := by
    have h := List.drop_left Da V
    rw [hDa, List.length_replicate] at h
    exact h
  have hWcons : W = tc :: (t' ++ V2) := by
    rw [hWdef, List.cons_append]
  have hF8 : wsRunLen V = 1 := by
    rw [hVdef]
    unfold wsRunLen
    rw [List.takeWhile_cons, if_pos hwsSpace, hWcons, List.takeWhile_cons]
    simp [htc]
  have hF9 : V.drop 1 = W := rfl
  have htlen : 1 ≤ (tc :: t').length := by simp
  have htlew : (tc :: t').length ≤ W.length := by
    rw [hWdef, List.length_append]
    omega
  -- stage two: failure of every shorter title
  have hfail : ∀ tl ∈ lazyCounts ((tc :: t').length - 1),
      (if (W.take tl).all isDotChar = true then
        firstSome (greedyCounts0 (wsRunLen (W.drop tl))) fun g2 =>
          firstSome (greedyCounts (dashRunLen ((W.drop tl).drop g2))) fun d2 =>
            (suffixGroup (((W.drop tl).drop g2).drop d2)).map fun s =>
              SFull.mk (w0 ++ '/' :: '/' :: w1) (U.take (a1 + 1)) (V.take 1)
                (W.take tl) ((W.drop tl).take g2)
                (((W.drop tl).drop g2).take d2) s
      else none) = none := by
    intro tl htl
    rw [mem_lazyCounts] at htl
    have htlt : tl < (tc :: t').length := by omega
    by_cases hdotc : (W.take tl).all isDotChar = true
    · rw [if_pos hdotc]
      apply firstSome_none
      intro g2 hg2
      rw [mem_greedyCounts0] at hg2
      have hu3 : W.drop tl = (tc :: t').drop tl ++ V2 := by
        rw [hWdef]
        exact List.drop_append_of_le_length (by omega)
      obtain ⟨htrne, htrlast⟩ := drop_ne_nil_lastIsWs htlt htlast
      have hg2lt : g2 < ((tc :: t').drop tl).length := by
        have := wsRunLen_lt_of_lastIsWs_false (y := V2) htrne htrlast
        rw [← hu3] at this
        omega
      apply firstSome_none
      intro d2 hd2
      rw [mem_greedyCounts] at hd2
      have hu4 : (W.drop tl).drop g2 = ((tc :: t').drop tl).drop g2 ++ V2 := by
        rw [hu3]
        exact List.drop_append_of_le_length (by omega)
      obtain ⟨htr2ne, htr2last⟩ := drop_ne_nil_lastIsWs hg2lt htrlast
      have hd2le : d2 ≤ (((tc :: t').drop tl).drop g2).length := by
        have hrun : dashRunLen ((((tc :: t').drop tl).drop g2) ++ V2) ≤
            (((tc :: t').drop tl).drop g2).length := by
          unfold dashRunLen
          rw [hV2def, takeWhile_append_not hdashSpace]
          exact (List.takeWhile_prefix _).length_le
        rw [← hu4] at hrun
        omega
      have hu5 : ((W.drop tl).drop g2).drop d2 =
          (((tc :: t').drop tl).drop g2).drop d2 ++ V2 := by
        rw [hu4]
        exact List.drop_append_of_le_length hd2le
      have hV2dash : V2 = ' ' :: '-' :: (List.replicate b1 '-' ++ S) := by
        rw [hV2def, hDb, List.replicate_succ, List.cons_append]
      have hxlast : lastIsWs ((((tc :: t').drop tl).drop g2).drop d2) = false := by
        rcases Nat.lt_or_ge d2 (((tc :: t').drop tl).drop g2).length with hlt | hge
        · exact (drop_ne_nil_lastIsWs hlt htr2last).2
        · have : (((tc :: t').drop tl).drop g2).drop d2 = [] :=
            List.drop_eq_nil_of_le hge
          rw [this]
          rfl
      have hnone : suffixGroup (((W.drop tl).drop g2).drop d2) = none := by
        rw [hu5, hV2dash]
        exact suffixGroup_pad_dash_none _ _ hxlast
      rw [hnone]
      rfl
    · rw [if_neg hdotc]
  -- stage three: success at the full title
  have htake : W.take (tc :: t').length = tc :: t' := by
    rw [hWdef]
    exact List.take_left _ _
  have hdropW : W.drop (tc :: t').length = V2 := by
    rw [hWdef]
    exact List.drop_left _ _
  have hwsV2 : wsRunLen V2 = 1 := by
    rw [hV2def, hDb, List.replicate_succ, List.cons_append]
    unfold wsRunLen
    rw [List.takeWhile_cons, if_pos hwsSpace, List.takeWhile_cons]
    simp [hwsDash]
  have hdropV2 : V2.drop 1 = Db ++ S := rfl
  have hDbAll : ∀ c ∈ Db, isDashChar c = true := by
    intro c hc
    have := List.eq_of_mem_replicate (hDb ▸ hc)
    simp [this, isDashChar]
  obtain ⟨sc, s1', rfl⟩ : ∃ sc s1', s1 = sc :: s1' := by
    cases s1 with
    | nil => exact absurd rfl hs1ne
    | cons x xs => exact ⟨x, xs, rfl⟩
  have hsc : isWsChar sc = true := by
    have := List.all_eq_true.mp hs1 sc (by simp)
    exact this
  have hscDash : isDashChar sc = false := by
    have hne : sc ≠ '-' := by
      intro hcon
      rw [hcon] at hsc
      exact absurd hsc (by decide)
    simp [isDashChar, hne]
  have hScons : S = sc :: (s1' ++ '/' :: '/' :: s2) := by
    rw [hS, List.cons_append]
  have hdashDbS : dashRunLen (Db ++ S) = b1 + 1 := by
    unfold dashRunLen
    rw [hScons, takeWhile_append_not hscDash, takeWhile_all_eq hDbAll, hDb,
      List.length_replicate]
  have hdropDbS : (Db ++ S).drop (b1 + 1) = S := by
    have h := List.drop_left Db S
    rw [hDb, List.length_replicate] at h
    exact h
  have htakeDbS : (Db ++ S).take (b1 + 1) = Db := by
    have h := List.take_left Db S
    rw [hDb, List.length_replicate] at h
    exact h
  have hsfxS : suffixGroup S = some S := by
    have hwsS : wsRunLen S = (sc :: s1').length := by
      unfold wsRunLen
      rw [hS, takeWhile_append_not hwsSlash]
      rw [takeWhile_all_eq (List.all_eq_true.mp hs1)]
    have hdropS : S.drop (sc :: s1').length = '/' :: '/' :: s2 :=
      List.drop_left _ _
    unfold suffixGroup
    dsimp only
    rw [hwsS]
    rw [if_neg (by simp : ¬((sc :: s1').length = 0))]
    rw [hdropS]
    split
    · rename_i rest heq
      obtain rfl : rest = s2 := by
        injection heq with h1 h2
        injection h2 with h3 h4
        exact h4.symm
      rw [if_pos hs2]
    · rename_i hne
      exact absurd (hne s2 rfl) not_false
  have htakeU : U.take (a1 + 1) = Da := by
    have h := List.take_left Da V
    rw [hDa, List.length_replicate] at h
    rw [hUdef]
    exact h
  have htakeV : V.take 1 = [' '] := rfl
  have htakeV2 : V2.take 1 = [' '] := rfl
  have hgc01 : greedyCounts0 1 = 1 :: [0] := rfl
  -- assemble
  unfold sectionMatchFull
  dsimp only
  rw [hF1, hF2]
  split
  case h_2 hne => exact absurd (hne R2 rfl) not_false
  case h_1 =>
  rename_i r2 heq
  obtain rfl : r2 = R2 := by
    injection heq with h1 h2
    injection h2 with h3 h4
    exact h4.symm
  rw [hF3, if_neg hF4, hF5, hF6, greedyCounts_succ]
  apply firstSome_cons_some
  dsimp only
  rw [hF7, hF8, hgc01]
  apply firstSome_cons_some
  dsimp only
  rw [hF9, lazyCounts_split htlen htlew, firstSome_append_none hfail,
    List.range'_succ]
  apply firstSome_cons_some
  dsimp only
  rw [htake, if_pos htdot, hdropW, hwsV2, hgc01]
  apply firstSome_cons_some
  dsimp only
  rw [hdropV2, hdashDbS, greedyCounts_succ]
  apply firstSome_cons_some
  dsimp only
  rw [hdropDbS, hsfxS, Option.map_some']
  rw [htakeU, htakeV, htakeV2, htakeDbS]

/-! ### Idempotence of the section rewrite -/

theorem sectionRewriteLine_of_match {l : List Char} {g : SGroups}
    (h : sectionMatch l = some g) : sectionRewriteLine l = sectionCenter g := by
  unfold sectionRewriteLine
  rw [h]

theorem sectionRewriteLine_of_none {l : List Char}
    (h : sectionMatch l = none) : sectionRewriteLine l = l := by
  unfold sectionRewriteLine
  rw [h]

theorem sectionCenter_idem {l : List Char} {f : SFull} (hInv : SectionInv l f)
    (hhead : headIsWs f.title = false) (hlast : lastIsWs f.title = false) :
    sectionRewriteLine (sectionCenter f.groups) = sectionCenter f.groups := by
  obtain ⟨hconcat, ⟨w0, w1, hpfx, hw0, hw1, hw1ne⟩, hdLne, hdL, hgL, htne, htdot,
    hgR, hdRne, hdR, s1, s2, hsfx, hs1, hs1ne, hs2⟩ := hInv
  set ds := f.dashL.length + f.dashR.length with hds
  have hds2 : 2 ≤ ds := by
    have h1 : 0 < f.dashL.length := List.length_pos.mpr hdLne
    have h2 : 0 < f.dashR.length := List.length_pos.mpr hdRne
    omega
  have hA : 1 ≤ ds / 2 := by omega
  have hB : 1 ≤ ds - ds / 2 := by omega
  have hparts : sectionCenter f.groups =
      w0 ++ '/' :: '/' :: (w1 ++ (List.replicate (ds / 2) '-' ++
        (' ' :: (f.title ++ (' ' :: (List.replicate (ds - ds / 2) '-' ++
          (s1 ++ '/' :: '/' :: s2))))))) := by
    rw [sectionCenter_parts]
    simp only [SFull.groups]
    rw [hpfx, hsfx]
    simp [List.append_assoc]
  have hre := sectionMatchFull_center hw0 hw1 hw1ne hA hB htne htdot hhead
    hlast hs1 hs1ne hs2
  have hmatch : sectionMatch (sectionCenter f.groups) =
      some ⟨w0 ++ '/' :: '/' :: w1, List.replicate (ds / 2) '-', f.title,
        List.replicate (ds - ds / 2) '-', s1 ++ '/' :: '/' :: s2⟩ := by
    unfold sectionMatch
    rw [hparts, hre, Option.map_some']
    rfl
  rw [sectionRewriteLine_of_match hmatch]
  rw [sectionCenter_parts, hparts]
  dsimp only
  simp only [List.length_replicate]
  have e : ds / 2 + (ds - ds / 2) = ds := by omega
  rw [e]
  simp [List.append_assoc]

/-- Idempotence of the per-line section rewrite, provided the captured
title neither begins nor ends with whitespace (for a non-matching line the
rewrite is the identity). -/
theorem sectionRewriteLine_idem (l : List Char)
    (h : ∀ g, sectionMatch l = some g →
      headIsWs g.title = false ∧ lastIsWs g.title = false) :
    sectionRewriteLine (sectionRewriteLine l) = sectionRewriteLine l := by
  cases hm : sectionMatchFull l with
  | none =>
    have hnone : sectionMatch l = none := by
      unfold sectionMatch
      rw [hm]
      rfl
    rw [sectionRewriteLine_of_none hnone, sectionRewriteLine_of_none hnone]
  | some f =>
    have hsome : sectionMatch l = some f.groups := by
      unfold sectionMatch
      rw [hm, Option.map_some']
    obtain ⟨hhead, hlast⟩ := h f.groups hsome
    rw [sectionRewriteLine_of_match hsome]
    exact sectionCenter_idem (sectionMatchFull_inv hm) hhead hlast

/-! ### The section loop as a map plus a change flag -/

theorem sectionLoop_fst (ls : List (List Char)) :
    (sectionLoop ls).1 = ls.map sectionRewriteLine := by
  induction ls with
  | nil => rfl
  | cons a t ih =>
    show (sectionLoop (a :: t)).1 = sectionRewriteLine a :: t.map sectionRewriteLine
    unfold sectionLoop
    dsimp only
    rw [ih]

theorem sectionLoop_snd (ls : List (List Char)) :
    (sectionLoop ls).2 = true ↔ ls.map sectionRewriteLine ≠ ls := by
  induction ls with
  | nil => simp [sectionLoop]
  | cons a t ih =>
    show ((sectionRewriteLine a :: (sectionLoop t).1,
      (sectionRewriteLine a != a) || (sectionLoop t).2) : _ × Bool).2 = true ↔ _
    rw [Bool.or_eq_true, bne_iff_ne, ih]
    constructor
    · rintro (hne | hne) <;> simp [List.cons.injEq] <;> tauto
    · intro hne
      by_cases h1 : sectionRewriteLine a = a
      · right
        intro h2
        exact hne (by rw [List.map_cons, h1, h2])
      · exact Or.inl h1

/-! ### The region loop: index access helpers -/

theorem getD_set_ne {s : List (List Char)} {i j : Nat} {c : List Char}
    (h : i ≠ j) : (s.set i c).getD j [] = s.getD j [] := by
  rw [List.getD_eq_getElem?_getD, List.getD_eq_getElem?_getD,
    List.getElem?_set_ne h]

theorem getD_set_self {s : List (List Char)} {i : Nat} {c : List Char}
    (h : i < s.length) : (s.set i c).getD i [] = c := by
  rw [List.getD_eq_getElem?_getD, List.getElem?_set_self h]
  rfl

theorem getD_eq_get {s : List (List Char)} {j : Nat} (h : j < s.length) :
    s.getD j [] = s.get ⟨j, h⟩ := by
  rw [List.getD_eq_getElem?_getD, List.getElem?_eq_getElem h]
  rfl

/-- The one-step unfolding of the region loop: the wrapper satisfies the
recursion of the scan literally, because the step budget cannot run out
while the loop guard holds. -/
theorem regionLoop_eq (ls : List (List Char)) (i : Nat) (changed : Bool) :
    regionLoop ls i changed =
      (if h : i + 2 < ls.length then
        let top := ls.get ⟨i, by omega⟩
        let middle := ls.get ⟨i + 1, by omega⟩
        let bottom := ls.get ⟨i + 2, by omega⟩
        if REGION_START.isPrefixOf top && REGION_END.isPrefixOf bottom then
          let title := trimStr middle
          if title.isEmpty then regionLoop ls (i + 1) changed
          else
            match centerTitle top.length title with
            | none => none
            | some centered =>
              if centered ≠ middle then
                regionLoop (ls.set (i + 1) centered) (i + 1) true
              else regionLoop ls (i + 1) changed
        else regionLoop ls (i + 1) changed
      else some (ls, changed)) := by
  by_cases hguard : i + 2 < ls.length
  · obtain ⟨fu, hfu⟩ : ∃ fu, ls.length - i = fu + 1 :=
      ⟨ls.length - i - 1, by omega⟩
    have hfu2 : fu = ls.length - (i + 1) := by omega
    show regionLoopF (ls.length - i) ls i changed = _
    rw [hfu]
    unfold regionLoopF
    have e1 : regionLoopF fu ls (i + 1) changed =
        regionLoop ls (i + 1) changed := by
      unfold regionLoop
      rw [hfu2]
    have e2 : ∀ c, regionLoopF fu (ls.set (i + 1) c) (i + 1) true =
        regionLoop (ls.set (i + 1) c) (i + 1) true := by
      intro c
      unfold regionLoop
      rw [List.length_set, ← hfu2]
    rw [dif_pos hguard, dif_pos hguard]
    dsimp only
    simp only [e1, e2]
  · show regionLoopF (ls.length - i) ls i changed = _
    rw [dif_neg hguard]
    cases hlen : ls.length - i with
    | zero => rfl
    | succ fu =>
      unfold regionLoopF
      rw [dif_neg hguard]

/-! ### The region loop: the characterization of one pass -/

theorem regionLoop_master : ∀ (n : Nat) (s : List (List Char)) (i : Nat)
    (ch : Bool) (out : List (List Char)) (ch' : Bool), s.length - i ≤ n →
    regionLoop s i ch = some (out, ch') →
    out.length = s.length ∧
    (∀ j, j ≤ i → out.getD j [] = s.getD j []) ∧
    (∀ j, i < j → out.getD j [] = s.getD j [] ∨
      (j + 1 < s.length ∧ trimStr (s.getD j []) ≠ [] ∧
        REGION_START.isPrefixOf (out.getD (j - 1) []) = true ∧
        REGION_END.isPrefixOf (s.getD (j + 1) []) = true)) ∧
    (∀ j, i < j → j + 1 < s.length →
      REGION_START.isPrefixOf (out.getD (j - 1) []) = true →
      REGION_END.isPrefixOf (s.getD (j + 1) []) = true →
      trimStr (s.getD j []) ≠ [] →
      centerTitle (out.getD (j - 1) []).length (trimStr (s.getD j [])) =
        some (out.getD j [])) := by
  intro n
  induction n with
  | zero =>
    intro s i ch out ch' hn hcall
    have hguard : ¬(i + 2 < s.length) := by omega
    rw [regionLoop_eq] at hcall
    rw [dif_neg hguard] at hcall
    obtain ⟨rfl, rfl⟩ : s = out ∧ ch = ch' := by
      constructor <;> injection hcall with h1 <;> injection h1 <;> assumption
    refine ⟨rfl, fun j _ => rfl, fun j _ => Or.inl rfl, fun j hij hjlen _ _ _ => ?_⟩
    omega
  | succ n ih =>
    intro s i ch out ch' hn hcall
    rw [regionLoop_eq] at hcall
    split at hcall
    case isFalse hguard =>
      obtain ⟨rfl, rfl⟩ : s = out ∧ ch = ch' := by
        constructor <;> injection hcall with h1 <;> injection h1 <;> assumption
      refine ⟨rfl, fun j _ => rfl, fun j _ => Or.inl rfl, fun j hij hjlen _ _ _ => ?_⟩
      omega
    case isTrue hguard =>
    dsimp only at hcall
    have hi : i < s.length := by omega
    have hi1 : i + 1 < s.length := by omega
    have hgetTop : s.getD i [] = s.get ⟨i, by omega⟩ := getD_eq_get hi
    have hgetMid : s.getD (i + 1) [] = s.get ⟨i + 1, by omega⟩ := getD_eq_get hi1
    have hgetBot : s.getD (i + 2) [] = s.get ⟨i + 2, by omega⟩ := getD_eq_get hguard
    split at hcall
    case isFalse hdet =>
      obtain ⟨hlen, h2, h3, h4⟩ := ih s (i + 1) ch out ch' (by omega) hcall
      refine ⟨hlen, fun j hj => h2 j (by omega), ?_, ?_⟩
      · intro j hij
        rcases Nat.lt_or_ge (i + 1) j with hj | hj
        · exact h3 j hj
        · exact Or.inl (h2 j (by omega))
      · intro j hij hjlen hrs hre htr
        rcases Nat.lt_or_ge (i + 1) j with hj | hj
        · exact h4 j hj hjlen hrs hre htr
        · -- j = i + 1 and the detection failed, a contradiction
          obtain rfl : j = i + 1 := by omega
          exfalso
          apply hdet
          rw [Bool.and_eq_true]
          constructor
          · have : out.getD i [] = s.getD i [] := h2 i (by omega)
            rw [← hgetTop, ← this]
            simpa using hrs
          · rw [← hgetBot]
            simpa using hre
    case isTrue hdet =>
    rw [Bool.and_eq_true] at hdet
    obtain ⟨hdetTop, hdetBot⟩ := hdet
    split at hcall
    case isTrue hemp =>
      rw [List.isEmpty_iff] at hemp
      obtain ⟨hlen, h2, h3, h4⟩ := ih s (i + 1) ch out ch' (by omega) hcall
      refine ⟨hlen, fun j hj => h2 j (by omega), ?_, ?_⟩
      · intro j hij
        rcases Nat.lt_or_ge (i + 1) j with hj | hj
        · exact h3 j hj
        · exact Or.inl (h2 j (by omega))
      · intro j hij hjlen hrs hre htr
        rcases Nat.lt_or_ge (i + 1) j with hj | hj
        · exact h4 j hj hjlen hrs hre htr
        · obtain rfl : j = i + 1 := by omega
          exfalso
          rw [hgetMid] at htr
          exact htr hemp
    case isFalse hemp =>
    split at hcall
    case h_1 hcent => exact absurd hcall (by simp)
    case h_2 centered hcent =>
    rw [List.isEmpty_iff] at hemp
    split at hcall
    case isFalse hne =>
      push_neg at hne
      obtain ⟨hlen, h2, h3, h4⟩ := ih s (i + 1) ch out ch' (by omega) hcall
      refine ⟨hlen, fun j hj => h2 j (by omega), ?_, ?_⟩
      · intro j hij
        rcases Nat.lt_or_ge (i + 1) j with hj | hj
        · exact h3 j hj
        · exact Or.inl (h2 j (by omega))
      · intro j hij hjlen hrs hre htr
        rcases Nat.lt_or_ge (i + 1) j with hj | hj
        · exact h4 j hj hjlen hrs hre htr
        · obtain rfl : j = i + 1 := by omega
          have houti : out.getD i [] = s.getD i [] := h2 i (by omega)
          have houtj : out.getD (i + 1) [] = s.getD (i + 1) [] := h2 (i + 1) (by omega)
          rw [Nat.add_sub_cancel, houti, houtj, hgetTop, hgetMid, hcent, hne]
    case isTrue hcne =>
      obtain ⟨hlen, h2, h3, h4⟩ :=
        ih (s.set (i + 1) centered) (i + 1) true out ch'
          (by rw [List.length_set]; omega) hcall
      rw [List.length_set] at hlen
      have hsetMid : (s.set (i + 1) centered).getD (i + 1) [] = centered :=
        getD_set_self hi1
      have hsetOther : ∀ j, j ≠ i + 1 →
          (s.set (i + 1) centered).getD j [] = s.getD j [] :=
        fun j hj => getD_set_ne (fun hcon => hj hcon.symm)
      have houtMid : out.getD (i + 1) [] = centered := by
        rw [h2 (i + 1) (le_refl _), hsetMid]
      have houtTop : out.getD i [] = s.getD i [] := by
        rw [h2 i (by omega), hsetOther i (by omega)]
      refine ⟨hlen, ?_, ?_, ?_⟩
      · intro j hj
        rw [h2 j (by omega), hsetOther j (by omega)]
      · intro j hij
        rcases Nat.lt_or_ge (i + 1) j with hj | hj
        · rcases h3 j hj with hleft | ⟨hjlen, htr, hrs, hre⟩
          · rw [hsetOther j (by omega)] at hleft
            exact Or.inl hleft
          · refine Or.inr ⟨by rwa [List.length_set] at hjlen, ?_, hrs, ?_⟩
            · rwa [hsetOther j (by omega)] at htr
            · rwa [hsetOther (j + 1) (by omega)] at hre
        · obtain rfl : j = i + 1 := by omega
          refine Or.inr ⟨hguard, by rwa [hgetMid], ?_, by rwa [hgetBot]⟩
          rw [Nat.add_sub_cancel, houtTop, hgetTop]
          exact hdetTop
      · intro j hij hjlen hrs hre htr
        rcases Nat.lt_or_ge (i + 1) j with hj | hj
        · have := h4 j hj (by rw [List.length_set]; omega) hrs
            (by rwa [hsetOther (j + 1) (by omega)])
            (by rwa [hsetOther j (by omega)])
          rwa [hsetOther j (by omega)] at this
        · obtain rfl : j = i + 1 := by omega
          rw [Nat.add_sub_cancel, houtTop, houtMid, hgetTop, hgetMid]
          exact hcent

/-- The changed flag of the region loop records exactly whether the final
array differs from the starting one. -/
theorem regionLoop_changed : ∀ (n : Nat) (s : List (List Char)) (i : Nat)
    (ch : Bool) (out : List (List Char)) (ch' : Bool), s.length - i ≤ n →
    regionLoop s i ch = some (out, ch') →
    (ch' = true ↔ (ch = true ∨ out ≠ s)) := by
  intro n
  induction n with
  | zero =>
    intro s i ch out ch' hn hcall
    have hguard : ¬(i + 2 < s.length) := by omega
    rw [regionLoop_eq] at hcall
    rw [dif_neg hguard] at hcall
    obtain ⟨rfl, rfl⟩ : s = out ∧ ch = ch' := by
      constructor <;> injection hcall with h1 <;> injection h1
    simp
  | succ n ih =>
    intro s i ch out ch' hn hcall
    rw [regionLoop_eq] at hcall
    split at hcall
    case isFalse hguard =>
      obtain ⟨rfl, rfl⟩ : s = out ∧ ch = ch' := by
        constructor <;> injection hcall with h1 <;> injection h1
      simp
    case isTrue hguard =>
    dsimp only at hcall
    split at hcall
    case isFalse hdet => exact ih s (i + 1) ch out ch' (by omega) hcall
    case isTrue hdet =>
    split at hcall
    case isTrue hemp => exact ih s (i + 1) ch out ch' (by omega) hcall
    case isFalse hemp =>
    split at hcall
    case h_1 hcent => exact absurd hcall (by simp)
    case h_2 centered hcent =>
    split at hcall
    case isFalse hne => exact ih s (i + 1) ch out ch' (by omega) hcall
    case isTrue hcne =>
      have hi1 : i + 1 < s.length := by omega
      have hflag := ih (s.set (i + 1) centered) (i + 1) true out ch'
        (by rw [List.length_set]; omega) hcall
      obtain ⟨_, h2, _, _⟩ :=
        regionLoop_master (s.length - (i + 1)) (s.set (i + 1) centered) (i + 1)
          true out ch' (by rw [List.length_set]) hcall
      have houtMid : out.getD (i + 1) [] = centered := by
        rw [h2 (i + 1) (le_refl _), getD_set_self hi1]
      have houtne : out ≠ s := by
        intro hcon
        apply hcne
        rw [← houtMid, hcon, getD_eq_get hi1]
      rw [hflag]
      constructor
      · intro _
        exact Or.inr houtne
      · intro _
        exact Or.inl rfl

/-- Applying the region loop to the output of a completed region pass
changes nothing, provided no rewritten line begins with either border
literal. -/
theorem regionLoop_refix {orig out : List (List Char)} {chg : Bool}
    (hpass : regionPass orig = some (out, chg)) (hstab : borderStable orig out) :
    ∀ (n : Nat) (i : Nat) (ch : Bool), out.length - i ≤ n →
    regionLoop out i ch = some (out, ch) := by
  obtain ⟨hlen, h2, h3, h4⟩ :=
    regionLoop_master orig.length orig 0 false out chg (by omega) hpass
  intro n
  induction n with
  | zero =>
    intro i ch hn
    have hguard : ¬(i + 2 < out.length) := by omega
    rw [regionLoop_eq]
    rw [dif_neg hguard]
  | succ n ih =>
    intro i ch hn
    rw [regionLoop_eq]
    split
    case isFalse hguard => rfl
    case isTrue hguard =>
    dsimp only
    have hi : i < out.length := by omega
    have hi1 : i + 1 < out.length := by omega
    have hgetTop : out.getD i [] = out.get ⟨i, by omega⟩ := getD_eq_get hi
    have hgetMid : out.getD (i + 1) [] = out.get ⟨i + 1, by omega⟩ :=
      getD_eq_get hi1
    have hgetBot : out.getD (i + 2) [] = out.get ⟨i + 2, by omega⟩ :=
      getD_eq_get hguard
    split
    case isFalse hdet => exact ih (i + 1) ch (by omega)
    case isTrue hdet =>
    rw [Bool.and_eq_true] at hdet
    obtain ⟨hdetTop, hdetBot⟩ := hdet
    split
    case isTrue hemp => exact ih (i + 1) ch (by omega)
    case isFalse hemp =>
    rw [List.isEmpty_iff] at hemp
    -- the bottom line of the triple cannot have been rewritten
    have hbot : out.getD (i + 2) [] = orig.getD (i + 2) [] := by
      by_contra hcon
      have := (hstab (i + 2) (by omega) hcon).2.2.2
      rw [hgetBot] at this
      rw [this] at hdetBot
      exact Bool.false_ne_true hdetBot
    have hreOrig : REGION_END.isPrefixOf (orig.getD (i + 2) []) = true := by
      rw [← hbot, hgetBot]
      exact hdetBot
    have hrsOut : REGION_START.isPrefixOf (out.getD (i + 1 - 1) []) = true := by
      rw [Nat.add_sub_cancel, hgetTop]
      exact hdetTop
    have hcc : centerTitle (out.get ⟨i, by omega⟩).length
        (trimStr (out.get ⟨i + 1, by omega⟩)) =
        some (out.get ⟨i + 1, by omega⟩) := by
      rcases eq_or_ne (out.getD (i + 1) []) (orig.getD (i + 1) []) with hmid | hmid
      · -- the middle line was not rewritten
        have htr : trimStr (orig.getD (i + 1) []) ≠ [] := by
          rw [← hmid, hgetMid]
          exact hemp
        have := h4 (i + 1) (by omega) (by omega) hrsOut hreOrig htr
        rw [Nat.add_sub_cancel] at this
        have htreq : trimStr (out.getD (i + 1) []) =
            trimStr (orig.getD (i + 1) []) := by rw [hmid]
        rw [← hgetTop, ← hgetMid, htreq, this, hmid]
      · -- the middle line was rewritten to a centered padded title
        have hright : trimStr (orig.getD (i + 1) []) ≠ [] := by
          rcases h3 (i + 1) (by omega) with hleft | ⟨_, htr, _, _⟩
          · exact absurd hleft hmid
          · exact htr
        have hcent := h4 (i + 1) (by omega) (by omega) hrsOut hreOrig hright
        rw [Nat.add_sub_cancel] at hcent
        -- the final middle line is padding around the trimmed original title
        rw [centerTitle_eq] at hcent
        split at hcent
        case isFalse => exact absurd hcent (by simp)
        case isTrue hle =>
        have hmidval : out.getD (i + 1) [] =
            List.replicate (((out.getD i []).length -
              (trimStr (orig.getD (i + 1) [])).length) / 2) ' ' ++
            trimStr (orig.getD (i + 1) []) ++
            List.replicate ((out.getD i []).length -
              (trimStr (orig.getD (i + 1) [])).length -
              ((out.getD i []).length -
                (trimStr (orig.getD (i + 1) [])).length) / 2) ' ' := by
          injection hcent with h
          exact h.symm
        obtain ⟨w1, w2, _, _, _, hth, htl⟩ := trimStr_spec (orig.getD (i + 1) [])
        have htrimOut : trimStr (out.getD (i + 1) []) =
            trimStr (orig.getD (i + 1) []) := by
          rw [hmidval]
          exact trimStr_pad _ _ _ hth htl
        rw [← hgetTop, ← hgetMid, htrimOut, centerTitle_eq, if_pos hle,
          ← hmidval]
    rw [hcc]
    dsimp only
    rw [if_neg (by simp)]
    exact ih (i + 1) ch (by omega)

/-! ### Pass-level wrappers -/

theorem regionPass_master {ls out : List (List Char)} {chg : Bool}
    (h : regionPass ls = some (out, chg)) :
    out.length = ls.length ∧
    (∀ j, j ≤ 0 → out.getD j [] = ls.getD j []) ∧
    (∀ j, 0 < j → out.getD j [] = ls.getD j [] ∨
      (j + 1 < ls.length ∧ trimStr (ls.getD j []) ≠ [] ∧
        REGION_START.isPrefixOf (out.getD (j - 1) []) = true ∧
        REGION_END.isPrefixOf (ls.getD (j + 1) []) = true)) ∧
    (∀ j, 0 < j → j + 1 < ls.length →
      REGION_START.isPrefixOf (out.getD (j - 1) []) = true →
      REGION_END.isPrefixOf (ls.getD (j + 1) []) = true →
      trimStr (ls.getD j []) ≠ [] →
      centerTitle (out.getD (j - 1) []).length (trimStr (ls.getD j [])) =
        some (out.getD j [])) :=
  regionLoop_master ls.length ls 0 false out chg (by omega) h

theorem regionPass_changed {ls out : List (List Char)} {chg : Bool}
    (h : regionPass ls = some (out, chg)) : chg = true ↔ out ≠ ls := by
  have hc := regionLoop_changed ls.length ls 0 false out chg (by omega) h
  simpa using hc

theorem regionPass_again {orig out : List (List Char)} {chg : Bool}
    (hpass : regionPass orig = some (out, chg))
    (hstab : borderStable orig out) :
    regionPass out = some (out, false) :=
  regionLoop_refix hpass hstab out.length 0 false (by omega)

/-- The region pass on a single three-line file whose triple is detected
and whose middle trims to a nonempty title that centers successfully. -/
theorem regionPass_three {top mid bot title out : List Char}
    (hdet : (REGION_START.isPrefixOf top && REGION_END.isPrefixOf bot) = true)
    (htr : trimStr mid = title) (hne : title ≠ [])
    (hcent : centerTitle top.length title = some out) :
    regionPass [top, mid, bot] =
      some (if out = mid then ([top, mid, bot], false)
        else ([top, out, bot], true)) := by
  unfold regionPass
  show regionLoop [top, mid, bot] 0 false = _
  rw [regionLoop_eq]
  rw [dif_pos (by simp)]
  try dsimp only
  simp only [List.get_eq_getElem, List.getElem_cons_zero, List.getElem_cons_succ]
  rw [hdet]
  rw [if_pos rfl]
  rw [htr]
  rw [if_neg (by simp [List.isEmpty_iff, hne])]
  rw [hcent]
  try dsimp only
  by_cases hom : out = mid
  · rw [if_neg (by simp [hom]), if_pos hom]
    rw [regionLoop_eq]
    rw [dif_neg (by simp)]
  · rw [if_pos (by simp [hom]), if_neg hom]
    show regionLoop [top, out, bot] 1 true = some ([top, out, bot], true)
    rw [regionLoop_eq]
    rw [dif_neg (by simp)]

/-! ### The length bookkeeping of the section rewrite -/

theorem sectionRewrite_length {l : List Char} {f : SFull}
    (h : sectionMatchFull l = some f) :
    (sectionRewriteLine l).length = f.pfx.length + f.dashL.length + 2 +
        f.title.length + f.dashR.length + f.sfx.length ∧
      (sectionRewriteLine l).length + f.gapL.length + f.gapR.length =
        l.length + 2 := by
  obtain ⟨hconcat, _⟩ := sectionMatchFull_inv h
  have hsome : sectionMatch l = some f.groups := by
    unfold sectionMatch
    rw [h, Option.map_some']
  rw [sectionRewriteLine_of_match hsome, sectionCenter_length]
  simp only [SFull.groups]
  have hl := congrArg List.length hconcat
  simp only [List.length_append] at hl
  constructor
  · trivial
  · omega

/-! ### The walk: exclusion and extension filtering -/

mutual
theorem walkEntry_spec : ∀ (dirPath : List Char) (chain : List (List Char))
    (e : FsEntry) (q : List (List Char) × List Char),
    q ∈ walkEntry dirPath chain e →
    ∃ c2, q.1 = chain ++ c2 ∧ (∀ d ∈ c2, ¬d ∈ EXCLUDE_DIRS) ∧
      EXTENSION.isSuffixOf (joinPath (c2.foldl joinPath dirPath) q.2) = true
  | dirPath, chain, .file name, q, hmem => by
    unfold walkEntry at hmem
    split at hmem
    · rename_i hsfx
      rw [List.mem_singleton] at hmem
      subst hmem
      exact ⟨[], by simp, by simp, by simpa using hsfx⟩
    · simp at hmem
  | dirPath, chain, .dir name children, q, hmem => by
    unfold walkEntry at hmem
    split at hmem
    · simp at hmem
    · rename_i hexc
      obtain ⟨c2, hc2, hdirs, hsfx⟩ :=
        walkEntries_spec (joinPath dirPath name) (chain ++ [name]) children q hmem
      refine ⟨name :: c2, by rw [hc2]; simp, ?_, by simpa using hsfx⟩
      intro d hd
      rcases List.mem_cons.mp hd with rfl | hd2
      · exact hexc
      · exact hdirs d hd2

theorem walkEntries_spec : ∀ (dirPath : List Char) (chain : List (List Char))
    (es : List FsEntry) (q : List (List Char) × List Char),
    q ∈ walkEntries dirPath chain es →
    ∃ c2, q.1 = chain ++ c2 ∧ (∀ d ∈ c2, ¬d ∈ EXCLUDE_DIRS) ∧
      EXTENSION.isSuffixOf (joinPath (c2.foldl joinPath dirPath) q.2) = true
  | dirPath, chain, [], q, hmem => by simp [walkEntries] at hmem
  | dirPath, chain, e :: rest, q, hmem => by
    unfold walkEntries at hmem
    rw [List.mem_append] at hmem
    rcases hmem with hm | hm
    · exact walkEntry_spec dirPath chain e q hm
    · exact walkEntries_spec dirPath chain rest q hm
end

/-! ### The claims -/

/-- C1, counterexample: the line holding the comment opener, four dashes,
two spaces, the title Foo, two spaces, four dashes and the comment closer
is matched by the section pattern, yet the section rewrite shortens it from
21 to 19 characters, so the rewritten line does not keep the original
length. -/
theorem claim_C1_cex :
    (sectionMatch (("// ----  Foo  ---- //").toList)).isSome = true ∧
    (sectionRewriteLine (("// ----  Foo  ---- //").toList)).length ≠
      (("// ----  Foo  ---- //").toList).length := by
  decide

/-- C1, amended: for every line matched by the section-header pattern, the
rewritten line's length equals the sum of the five captured groups'
lengths plus two, one space on each side of the title; hence it differs
from the original length exactly by two minus the two uncaptured
whitespace gaps around the title, and the length is preserved precisely
when those gaps total two characters. -/
theorem claim_C1 {l : List Char} {f : SFull}
    (h : sectionMatchFull l = some f) :
    (sectionRewriteLine l).length = f.pfx.length + f.dashL.length + 2 +
        f.title.length + f.dashR.length + f.sfx.length ∧
    (sectionRewriteLine l).length + f.gapL.length + f.gapR.length =
      l.length + 2 ∧
    (f.gapL.length + f.gapR.length = 2 →
      (sectionRewriteLine l).length = l.length) := by
  obtain ⟨h1, h2⟩ := sectionRewrite_length h
  exact ⟨h1, h2, fun hg => by omega⟩

/-- C1, witness: the amended statement evaluated at a concrete matched
line whose gaps total four characters. -/
theorem claim_C1_witness :
    (sectionRewriteLine (("// ----  Foo  ---- //").toList)).length =
        (("// ").toList).length + (("----").toList).length + 2 +
        (("Foo").toList).length + (("----").toList).length +
        ((" //").toList).length ∧
      (sectionRewriteLine (("// ----  Foo  ---- //").toList)).length +
        (("  ").toList).length + (("  ").toList).length =
        (("// ----  Foo  ---- //").toList).length + 2 ∧
      ((("  ").toList).length + (("  ").toList).length = 2 →
        (sectionRewriteLine (("// ----  Foo  ---- //").toList)).length =
          (("// ----  Foo  ---- //").toList).length) :=
  claim_C1 (l := ("// ----  Foo  ---- //").toList)
    (f := ⟨("// ").toList, ("----").toList, ("  ").toList, ("Foo").toList,
      ("  ").toList, ("----").toList, (" //").toList⟩) (by decide)

/-- C2, counterexample: a four-line file with two overlapping banner
triples and a matched triple with a nonempty trimmed title, on which the
first region pass reports a change and the second region pass changes the
file again and reports another change, so the region pass is not
idempotent. -/
theorem claim_C2_cex :
    regionPass [REGION_START ++ ['y', 'y'], REGION_START ++ ['x'],
        ' ' :: REGION_END, REGION_END] =
      some ([REGION_START ++ ['y', 'y'], REGION_START ++ ['x'],
        REGION_END ++ [' '], REGION_END], true) ∧
    regionPass [REGION_START ++ ['y', 'y'], REGION_START ++ ['x'],
        REGION_END ++ [' '], REGION_END] =
      some ([REGION_START ++ ['y', 'y'], REGION_START ++ ['x', ' '],
        ' ' :: REGION_END ++ [' '], REGION_END], true) ∧
    trimStr (' ' :: REGION_END) ≠ [] ∧
    isRegionMiddle [REGION_START ++ ['y', 'y'], REGION_START ++ ['x'],
        ' ' :: REGION_END, REGION_END] 2 := by
  decide

/-- C2, amended: the region pass is idempotent on every file on which no
rewritten line begins, before or after rewriting, with the region border
opening or closing literal: a second run returns the same lines and
reports no change, hence performs no write. -/
theorem claim_C2 {orig out : List (List Char)} {chg : Bool}
    (hpass : regionPass orig = some (out, chg))
    (hstab : borderStable orig out) :
    regionPass out = some (out, false) :=
  regionPass_again hpass hstab

/-- C2, witness: the amended statement evaluated on a concrete three-line
banner file that the first pass rewrites. -/
theorem claim_C2_witness :
    regionPass [REGION_START,
        List.replicate 38 ' ' ++ ('F' :: 'o' :: 'o' :: List.replicate 38 ' '),
        REGION_END] =
      some ([REGION_START,
        List.replicate 38 ' ' ++ ('F' :: 'o' :: 'o' :: List.replicate 38 ' '),
        REGION_END], false) :=
  @claim_C2 [REGION_START, ('F' :: 'o' :: 'o' :: [' ', ' ']), REGION_END]
    [REGION_START,
      List.replicate 38 ' ' ++ ('F' :: 'o' :: 'o' :: List.replicate 38 ' '),
      REGION_END] true (by decide) (by decide)

/-- C3, counterexample: the line holding the comment opener, two dashes, a
space, one dash, a space and the comment closer is matched by the section
pattern with a whitespace-only title, and applying the section rewrite to
its own output changes the line again, so the per-line rewrite is not
idempotent. -/
theorem claim_C3_cex :
    (sectionMatch (("// -- - //").toList)).isSome = true ∧
    sectionRewriteLine (sectionRewriteLine (("// -- - //").toList)) ≠
      sectionRewriteLine (("// -- - //").toList) := by
  decide

/-- C3, amended: on every file in which each line matched by the section
pattern captures a title that neither begins nor ends with whitespace, the
per-line rewrite is idempotent and a second section pass over the
rewritten lines changes nothing and reports no change, hence performs no
write. -/
theorem claim_C3 {ls : List (List Char)}
    (h : ∀ l ∈ ls, ((sectionMatch l).all
      fun g => !headIsWs g.title && !lastIsWs g.title) = true) :
    (∀ l ∈ ls,
      sectionRewriteLine (sectionRewriteLine l) = sectionRewriteLine l) ∧
    sectionLoop ((sectionLoop ls).1) = ((sectionLoop ls).1, false) := by
  have hline : ∀ l ∈ ls,
      sectionRewriteLine (sectionRewriteLine l) = sectionRewriteLine l := by
    intro l hl
    apply sectionRewriteLine_idem
    intro g hg
    have hb := h l hl
    rw [hg, Option.all_some] at hb
    rw [Bool.and_eq_true, Bool.not_eq_true', Bool.not_eq_true'] at hb
    exact hb
  refine ⟨hline, ?_⟩
  have hmap : (ls.map sectionRewriteLine).map sectionRewriteLine =
      ls.map sectionRewriteLine := by
    rw [List.map_map]
    exact List.map_congr_left fun l hl => hline l hl
  have hfst2 : (sectionLoop ((sectionLoop ls).1)).1 = (sectionLoop ls).1 := by
    rw [sectionLoop_fst, sectionLoop_fst]
    exact hmap
  have hsnd : (sectionLoop ((sectionLoop ls).1)).2 = false := by
    have hiff := sectionLoop_snd ((sectionLoop ls).1)
    have heq : ((sectionLoop ls).1).map sectionRewriteLine =
        (sectionLoop ls).1 := by
      rw [sectionLoop_fst, hmap]
    rcases hb : (sectionLoop ((sectionLoop ls).1)).2 with _ | _
    · rfl
    · rw [hb] at hiff
      exact absurd heq (hiff.mp rfl)
  exact Prod.ext hfst2 hsnd

/-- C3, witness: the amended statement evaluated on a one-line file whose
matched title has visible endpoint characters. -/
theorem claim_C3_witness :
    (∀ l ∈ [("// -- Foo ---- //").toList],
      sectionRewriteLine (sectionRewriteLine l) = sectionRewriteLine l) ∧
    sectionLoop ((sectionLoop [("// -- Foo ---- //").toList]).1) =
      ((sectionLoop [("// -- Foo ---- //").toList]).1, false) :=
  claim_C3 (by decide)

/-- C4: for every matched region-header triple whose middle line trims to
a nonempty title no longer than the top border line, the centering step
succeeds and produces floor((width - title length) / 2) spaces, the title,
and the remaining spaces, for a total length equal to the top border
line's length. -/
theorem claim_C4 {top middle bottom : List Char}
    (hts : REGION_START.isPrefixOf top = true)
    (hbs : REGION_END.isPrefixOf bottom = true)
    (hne : trimStr middle ≠ [])
    (hle : (trimStr middle).length ≤ top.length) :
    centerTitle top.length (trimStr middle) =
      some (List.replicate ((top.length - (trimStr middle).length) / 2) ' ' ++
        trimStr middle ++
        List.replicate (top.length - (trimStr middle).length -
          (top.length - (trimStr middle).length) / 2) ' ') ∧
    ∀ out, centerTitle top.length (trimStr middle) = some out →
      out.length = top.length := by
  rw [centerTitle_eq, if_pos hle]
  refine ⟨rfl, ?_⟩
  intro out hout
  injection hout with hout
  rw [← hout]
  simp only [List.length_append, List.length_replicate]
  omega

/-- C4, witness: the width-preservation statement evaluated on a concrete
triple. -/
theorem claim_C4_witness :
    centerTitle REGION_START.length
        (trimStr ((' ' :: ' ' :: 'H' :: 'i' :: [' ']))) =
      some (List.replicate ((REGION_START.length -
          (trimStr ((' ' :: ' ' :: 'H' :: 'i' :: [' ']))).length) / 2) ' ' ++
        trimStr ((' ' :: ' ' :: 'H' :: 'i' :: [' '])) ++
        List.replicate (REGION_START.length -
          (trimStr ((' ' :: ' ' :: 'H' :: 'i' :: [' ']))).length -
          (REGION_START.length -
            (trimStr ((' ' :: ' ' :: 'H' :: 'i' :: [' ']))).length) / 2) ' ') ∧
    ∀ out, centerTitle REGION_START.length
        (trimStr ((' ' :: ' ' :: 'H' :: 'i' :: [' ']))) = some out →
      out.length = REGION_START.length :=
  @claim_C4 REGION_START (' ' :: ' ' :: 'H' :: 'i' :: [' ']) REGION_END
    (by decide) (by decide) (by decide) (by decide)

/-- C5: the centering step of the region pass is not total: on a matched
triple whose trimmed title is longer than the top border line the string
repeat count is negative and the program throws, modelled by the pass
returning none; in general the centering step fails exactly when the
width is smaller than the title length. -/
theorem claim_C5 :
    regionPass [REGION_START, List.replicate 90 'x', REGION_END] = none ∧
    ∀ (w : Nat) (t : List Char), (centerTitle w t = none ↔ w < t.length) := by
  constructor
  · decide
  · intro w t
    rw [centerTitle_eq]
    by_cases h : t.length ≤ w
    · rw [if_pos h]
      simp only [reduceCtorEq, false_iff, not_lt]
      omega
    · rw [if_neg h]
      simp only [true_iff]
      omega

/-- C6: for either pass, the file is written back and the path reported if
and only if some line changed: the pass result equals the original lines
exactly when the changed flag is false, a changed file is written as its
lines rejoined by the newline character together with one Updated line on
standard output, and an unchanged file produces no write and no output. -/
theorem claim_C6 {path content : List Char} {nl ml : List (List Char)}
    {c m : Bool}
    (hr : regionPass (splitLines content) = some (nl, c))
    (hs : sectionLoop (splitLines content) = (ml, m)) :
    centerRegionHeadersInFile path content =
      some (if c then ⟨some (joinLines nl), [updatedLine path]⟩
        else ⟨none, []⟩) ∧
    (c = true ↔ nl ≠ splitLines content) ∧
    centerSectionHeadersInFile path content =
      (if m then ⟨some (joinLines ml), [updatedLine path]⟩
        else ⟨none, []⟩) ∧
    (m = true ↔ ml ≠ splitLines content) := by
  refine ⟨?_, regionPass_changed hr, ?_, ?_⟩
  · unfold centerRegionHeadersInFile
    rw [hr]
  · unfold centerSectionHeadersInFile
    rw [hs]
  · have h1 := sectionLoop_snd (splitLines content)
    have h2 := sectionLoop_fst (splitLines content)
    rw [hs] at h1 h2
    dsimp only at h1 h2
    rw [← h2] at h1
    exact h1

/-- C6, witness: the write-iff-changed statement evaluated on a one-line
file that neither pass changes. -/
theorem claim_C6_witness :
    centerRegionHeadersInFile (("a.ts").toList) (("x").toList) =
      some (if false then
        ⟨some (joinLines [("x").toList]), [updatedLine (("a.ts").toList)]⟩
        else ⟨none, []⟩) ∧
    (false = true ↔ [("x").toList] ≠ splitLines (("x").toList)) ∧
    centerSectionHeadersInFile (("a.ts").toList) (("x").toList) =
      (if false then
        ⟨some (joinLines [("x").toList]), [updatedLine (("a.ts").toList)]⟩
        else ⟨none, []⟩) ∧
    (false = true ↔ [("x").toList] ≠ splitLines (("x").toList)) :=
  claim_C6 (by decide) (by decide)

/-- C7, counterexample: in a four-line file, the third line is the border
literal itself; in the original file it is neither the middle line of a
matched region triple nor a section-pattern match, yet the region pass
rewrites it, because the rewritten second line starts a new dynamically
matched triple. -/
theorem claim_C7_cex :
    regionPass [REGION_START ++ ['a'], ' ' :: REGION_START, REGION_END,
        REGION_END] =
      some ([REGION_START ++ ['a'], REGION_START ++ [' '],
        REGION_END ++ [' '], REGION_END], true) ∧
    ¬isRegionMiddle [REGION_START ++ ['a'], ' ' :: REGION_START,
        REGION_END, REGION_END] 2 ∧
    sectionMatch REGION_END = none ∧
    REGION_END ++ [' '] ≠ REGION_END := by
  decide

/-- C7, amended: provided no rewritten line begins, before or after
rewriting, with either border literal, the region pass leaves every line
that is not the middle of a matched triple unchanged and preserves the
number of lines; the section pass always leaves non-matching lines
unchanged and preserves the number of lines. -/
theorem claim_C7 {ls out : List (List Char)} {c : Bool}
    (hpass : regionPass ls = some (out, c))
    (hstab : borderStable ls out) :
    out.length = ls.length ∧
    (∀ j, ¬isRegionMiddle ls j → out.getD j [] = ls.getD j []) ∧
    (∀ l, sectionMatch l = none → sectionRewriteLine l = l) ∧
    ((sectionLoop ls).1).length = ls.length := by
  obtain ⟨hlen, h2, h3, _⟩ := regionPass_master hpass
  refine ⟨hlen, ?_, fun l hl => sectionRewriteLine_of_none hl, ?_⟩
  · intro j hnm
    rcases Nat.eq_zero_or_pos j with rfl | hj
    · exact h2 0 (le_refl 0)
    · rcases h3 j hj with hleft | ⟨hjlen, htr, hrs, hre⟩
      · exact hleft
      · exfalso
        apply hnm
        have hstabj : out.getD (j - 1) [] = ls.getD (j - 1) [] := by
          by_contra hcon
          have hfalse := (hstab (j - 1) (by omega) hcon).2.1
          rw [hfalse] at hrs
          exact Bool.false_ne_true hrs
        exact ⟨hj, hjlen, by rwa [← hstabj], hre⟩
  · rw [sectionLoop_fst]
    exact List.length_map ..

/-- C7, witness: the non-mutation statement evaluated on a concrete
three-line banner file. -/
theorem claim_C7_witness :
    ([REGION_START,
        List.replicate 38 ' ' ++ ('H' :: 'e' :: 'y' :: List.replicate 38 ' '),
        REGION_END] : List (List Char)).length =
      ([REGION_START, ' ' :: 'H' :: 'e' :: 'y' :: [' '],
        REGION_END] : List (List Char)).length ∧
    (∀ j, ¬isRegionMiddle [REGION_START, ' ' :: 'H' :: 'e' :: 'y' :: [' '],
        REGION_END] j →
      ([REGION_START,
          List.replicate 38 ' ' ++ ('H' :: 'e' :: 'y' :: List.replicate 38 ' '),
          REGION_END] : List (List Char)).getD j [] =
        ([REGION_START, ' ' :: 'H' :: 'e' :: 'y' :: [' '],
          REGION_END] : List (List Char)).getD j []) ∧
    (∀ l, sectionMatch l = none → sectionRewriteLine l = l) ∧
    ((sectionLoop [REGION_START, ' ' :: 'H' :: 'e' :: 'y' :: [' '],
        REGION_END]).1).length =
      ([REGION_START, ' ' :: 'H' :: 'e' :: 'y' :: [' '],
        REGION_END] : List (List Char)).length :=
  @claim_C7 [REGION_START, ' ' :: 'H' :: 'e' :: 'y' :: [' '], REGION_END]
    [REGION_START,
      List.replicate 38 ' ' ++ ('H' :: 'e' :: 'y' :: List.replicate 38 ' '),
      REGION_END] true (by decide) (by decide)

/-- C8: every file the walk dispatches lies outside the excluded
directories at every depth below the root, and its full path ends with the
target extension; contrapositively, a file below a directory named
node_modules or .git is never dispatched, whatever its extension. -/
theorem claim_C8 {root : List Char} {entries : List FsEntry}
    {chain : List (List Char)} {name : List Char}
    (h : (chain, name) ∈ walk root entries) :
    (∀ d ∈ chain, ¬d ∈ EXCLUDE_DIRS) ∧
    EXTENSION.isSuffixOf (joinPath (chain.foldl joinPath root) name) = true := by
  obtain ⟨c2, hc2, hdirs, hsfx⟩ :=
    walkEntries_spec root [] entries (chain, name) h
  dsimp only at hc2 hsfx
  rw [List.nil_append] at hc2
  subst hc2
  exact ⟨hdirs, hsfx⟩

/-- C8, witness: the exclusion statement evaluated on a concrete tree with
one source directory and one excluded directory. -/
theorem claim_C8_witness :
    (∀ d ∈ [("src").toList], ¬d ∈ EXCLUDE_DIRS) ∧
    EXTENSION.isSuffixOf (joinPath (([("src").toList]).foldl joinPath
      (("/r").toList)) (("a.ts").toList)) = true :=
  @claim_C8 (("/r").toList)
    [FsEntry.dir (("src").toList) [FsEntry.file (("a.ts").toList)],
      FsEntry.dir (("node_modules").toList) [FsEntry.file (("b.ts").toList)]]
    [("src").toList] (("a.ts").toList) (by decide)

/-- C9, counterexample: with a top border line consisting of the comment
opener followed by exactly eighty asterisks, the middle line holding Foo
with one space on each side is rewritten with 39 leading spaces to a total
width of 81, not with floor((80-3)/2) = 38 leading spaces to a width of
80 as the claim states. -/
theorem claim_C9_cex :
    regionPass ['/' :: List.replicate 80 '*',
        ' ' :: 'F' :: 'o' :: 'o' :: [' '], REGION_END] =
      some (['/' :: List.replicate 80 '*',
        List.replicate 39 ' ' ++ ('F' :: 'o' :: 'o' :: List.replicate 39 ' '),
        REGION_END], true) ∧
    (List.replicate 39 ' ' ++
      ('F' :: 'o' :: 'o' :: List.replicate 39 ' ')).length ≠ 80 ∧
    ((List.replicate 39 ' ' ++
      ('F' :: 'o' :: 'o' :: List.replicate 39 ' ')).takeWhile
        isWsChar).length ≠ (80 - 3) / 2 := by
  decide

/-- C9, amended: with a top border line of total length 80, the comment
opener followed by 79 asterisks, a middle line holding Foo with arbitrary
leading and trailing spaces, and a closing border line, the region pass
rewrites the middle line to exactly floor((80-3)/2) = 38 leading spaces,
the literal Foo, and 39 trailing spaces, filling the width 80. -/
theorem claim_C9 (a b : Nat) :
    (regionPass ['/' :: List.replicate 79 '*',
        List.replicate a ' ' ++ ('F' :: 'o' :: 'o' :: List.replicate b ' '),
        REGION_END]).map Prod.fst =
      some ['/' :: List.replicate 79 '*',
        List.replicate 38 ' ' ++ ('F' :: 'o' :: 'o' :: List.replicate 39 ' '),
        REGION_END] := by
  have htr : trimStr (List.replicate a ' ' ++
      ('F' :: 'o' :: 'o' :: List.replicate b ' ')) = ['F', 'o', 'o'] := by
    have hp := trimStr_pad ['F', 'o', 'o'] a b (by rfl) (by rfl)
    simpa using hp
  have hcent : centerTitle ('/' :: List.replicate 79 '*').length
      ['F', 'o', 'o'] =
      some (List.replicate 38 ' ' ++
        ('F' :: 'o' :: 'o' :: List.replicate 39 ' ')) := by decide
  have h3 := @regionPass_three ('/' :: List.replicate 79 '*')
    (List.replicate a ' ' ++ ('F' :: 'o' :: 'o' :: List.replicate b ' '))
    REGION_END ['F', 'o', 'o']
    (List.replicate 38 ' ' ++ ('F' :: 'o' :: 'o' :: List.replicate 39 ' '))
    (by decide) htr (by decide) hcent
  rw [h3]
  by_cases hom : (List.replicate 38 ' ' ++
      ('F' :: 'o' :: 'o' :: List.replicate 39 ' ')) =
      List.replicate a ' ' ++ ('F' :: 'o' :: 'o' :: List.replicate b ' ')
  · rw [if_pos hom, Option.map_some']
    rw [← hom]
  · rw [if_neg hom, Option.map_some']

/-- C10: rerunning the section pass on the already balanced line of the
comment opener, four dashes, one space, Foo, one space, four dashes and
the comment closer reproduces the line exactly: same total length, both
dash runs of length four so their difference is at most one, and by
construction of the rebuilt line exactly one space on each side of Foo. -/
theorem claim_C10 :
    sectionRewriteLine (("// ---- Foo ---- //").toList) =
      ("// ---- Foo ---- //").toList ∧
    (sectionRewriteLine (("// ---- Foo ---- //").toList)).length =
      (("// ---- Foo ---- //").toList).length ∧
    sectionMatch (("// ---- Foo ---- //").toList) =
      some ⟨("// ").toList, List.replicate 4 '-', ("Foo").toList,
        List.replicate 4 '-', (" //").toList⟩ := by
  decide

end Center
